import Mathlib

/-!
Shallow embedding of the json-to-synthesis `Synthesizer` (src/index.js).

Modelling conventions:
* JavaScript values observed in documents are modelled by the inductive
  `JSVal`; JS truthiness is `JSVal.falsy`, and coercion of a value to an
  object property key is `JSVal.toKey`.
* JS objects and ES `Map`s are modelled as association lists
  (`List (String × _)`) in property creation order; property read is
  first-match lookup, property write replaces in place or appends at
  the end.  `Map` iteration is creation order, but enumeration of a
  plain object (`Object.keys`/`Object.entries`) follows the ECMAScript
  `[[OwnPropertyKeys]]` order modelled by `jsEntries`: array-index keys
  ascending first, then the rest in creation order.
* JS numbers are modelled as rationals (`Rat`); the 1-decimal rounding of
  `Number(x.toFixed(1))` is modelled as exact decimal rounding.  Binary
  floating point artifacts are out of the modelled scope.
* Fields that can hold JS `undefined` on the instance (`this.rules`,
  `this.skipKeys`, the three hooks, `this.name`) are `Option`-typed;
  calling or indexing `undefined` is a `TypeError`, modelled by
  `Except.error`.
* `fs`, `zlib`, `serialize-javascript`/`eval` and the event emitter are
  external collaborators: the codec layer is modelled as the identity on
  the serialized record, and `emit` is modelled by appending an `Event`.
-/

set_option maxRecDepth 10000

namespace J2S

/-- JavaScript values as they appear in documents and observations. -/
inductive JSVal where
  | undef
  | jnull
  | jbool (b : Bool)
  | jnum (n : Int)
  | jstr (s : String)
  | jarr (elems : List JSVal)
  | jobj (fields : List (String × JSVal))

/-- JS truthiness test, negated: `!value`. -/
def JSVal.falsy : JSVal → Bool
  | .undef => true
  | .jnull => true
  | .jbool b => !b
  | .jnum n => n == 0
  | .jstr s => s == ""
  | .jarr _ => false
  | .jobj _ => false

mutual
/-- Coercion of a JS value to an object property key (`String(value)`). -/
def JSVal.toKey : JSVal → String
  | .undef => "undefined"
  | .jnull => "null"
  | .jbool b => if b then "true" else "false"
  | .jnum n => toString n
  | .jstr s => s
  | .jarr l => joinKeys l
  | .jobj _ => "[object Object]"

/-- `Array.prototype.toString`: elements joined by commas, with
`null`/`undefined` elements rendered as the empty string. -/
def joinKeys : List JSVal → String
  | [] => ""
  | v :: rest =>
    (match v with
     | .undef => ""
     | .jnull => ""
     | w => JSVal.toKey w) ++ (if rest.isEmpty then "" else ",") ++ joinKeys rest
end

/-- Digit-sequence parser over characters (accumulator form), used to
recognize array-index property keys. -/
def parseDigitsAux : List Char → Nat → Option Nat
  | [], acc => some acc
  | c :: rest, acc =>
    if c.isDigit then parseDigitsAux rest (acc * 10 + (c.toNat - 48)) else none

/-- The ECMAScript array-index test for a property key: a canonical
decimal numeral (no sign, no leading zero except `"0"` itself) whose
value is below `2^32 - 1`; returns the index when the key is one. -/
def arrayIndex? (s : String) : Option Nat :=
  if s.data.isEmpty then none
  else
    match parseDigitsAux s.data 0 with
    | none => none
    | some n => if toString n = s ∧ n < 4294967295 then some n else none

/-- Stable ascending insertion by array-index value (non-index keys
compare as 0, but `sortIdx` is only applied to index-keyed entries). -/
def insertIdx (x : String × α) : List (String × α) → List (String × α)
  | [] => [x]
  | y :: ys =>
    if (arrayIndex? x.1).getD 0 ≤ (arrayIndex? y.1).getD 0 then x :: y :: ys
    else y :: insertIdx x ys

/-- Stable insertion sort ascending by array-index value. -/
def sortIdx : List (String × α) → List (String × α)
  | [] => []
  | x :: xs => insertIdx x (sortIdx xs)

/-- ECMAScript `[[OwnPropertyKeys]]` enumeration of a plain object
(`Object.keys`/`Object.entries` order): array-index keys in ascending
numeric order first, then the remaining string keys in property
creation order. -/
def jsEntries (l : List (String × α)) : List (String × α) :=
  sortIdx (l.filter (fun p => (arrayIndex? p.1).isSome))
    ++ l.filter (fun p => (arrayIndex? p.1).isNone)

/-- `Object.keys`, modelled for the document shapes the engine meets:
 keys of an object in `[[OwnPropertyKeys]]` order, index keys of a
 string, and the empty list for other primitives (`null`/`undefined`
 would throw and are handled at call sites). -/
def jsKeys : JSVal → List String
  | .jobj l => (jsEntries l).map Prod.fst
  | .jstr s => (List.range s.length).map (fun i => toString i)
  | _ => []

/-- The black-box path lookup `get(doc, path)` (lodash), returning
`undefined` when the path does not resolve.  Paths are treated as single
keys; the accessor is an external collaborator per the design. -/
def jsGet : JSVal → String → JSVal
  | .jobj l, path => (l.lookup path).getD JSVal.undef
  | _, _ => JSVal.undef

/-- A selection rule: `{ key, mode, threshold, operator?, cap? }`. -/
structure Rule where
  key : String
  mode : String
  threshold : Rat
  operator : Option String := none
  cap : Option Rat := none
  deriving DecidableEq, Repr

/-- One field tally: `{ total, values }` where `values` maps the observed
value key to its count, in insertion (first-encounter) order. -/
structure Root where
  total : Nat
  values : List (String × Nat)
  deriving DecidableEq, Repr

/-- Bump the count of `key` in a values map: increment in place when
present, otherwise append `{count: 1}` at the end. -/
def bumpValue (values : List (String × Nat)) (key : String) : List (String × Nat) :=
  match values with
  | [] => [(key, 1)]
  | (k, c) :: rest =>
    if k == key then (k, c + 1) :: rest else (k, c) :: bumpValue rest key

/-- The inner `addValue` helper of `transform` on a present root:
falsy values return early, otherwise the value key is tallied and
`total` is incremented. -/
def addValue (value : JSVal) (root : Root) : Root :=
  if value.falsy then root
  else { total := root.total + 1, values := bumpValue root.values value.toKey }

/-- `addValue` as called in the source, where the root can be
`undefined` (a `results.get` miss): touching `root.values` with a truthy
value is a `TypeError`; a falsy value still returns early. -/
def addValueE (value : JSVal) (root? : Option Root) : Except String (Option Root) :=
  if value.falsy then .ok root?
  else
    match root? with
    | none => .error "TypeError: Cannot read properties of undefined"
    | some root => .ok (some (addValue value root))

/-- One observation inside the tally loop: dropped when
`filterData(field, v)` holds, otherwise tallied as
`translateValue(field, v)` (pure form, hooks present, root present). -/
def processObservation (fd : String → JSVal → Bool) (tv : String → JSVal → JSVal)
    (field : String) (v : JSVal) (root : Root) : Root :=
  if fd field v then root else addValue (tv field v) root

/-- One observation with possibly-`undefined` hooks and root, as the
source can actually reach them: calling an `undefined` hook is a
`TypeError`. -/
def obsE (fd? : Option (String → JSVal → Bool)) (tv? : Option (String → JSVal → JSVal))
    (field : String) (v : JSVal) (root? : Option Root) : Except String (Option Root) :=
  match fd? with
  | none => .error "TypeError: this.filterData is not a function"
  | some fd =>
    if fd field v then .ok root?
    else
      match tv? with
      | none => .error "TypeError: this.translateValue is not a function"
      | some tv => addValueE (tv field v) root?

/-- The per-element loop over an array observation. -/
def obsListE (fd? : Option (String → JSVal → Bool)) (tv? : Option (String → JSVal → JSVal))
    (field : String) : List JSVal → Option Root → Except String (Option Root)
  | [], root? => .ok root?
  | v :: rest, root? => do
    let root? ← obsE fd? tv? field v root?
    obsListE fd? tv? field rest root?

/-- The resolved value of a field applied to the root: arrays contribute
one observation per element, anything else is a single observation. -/
def applyValueE (fd? : Option (String → JSVal → Bool)) (tv? : Option (String → JSVal → JSVal))
    (field : String) (value : JSVal) (root? : Option Root) : Except String (Option Root) :=
  match value with
  | .jarr l => obsListE fd? tv? field l root?
  | v => obsE fd? tv? field v root?

/-- Property read on an insertion-ordered object / `Map`. -/
def getA : List (String × α) → String → Option α
  | [], _ => none
  | (k, v) :: rest, key => if k == key then some v else getA rest key

/-- Property write on an insertion-ordered object / `Map`: replaces in
place when the key is present, otherwise appends at the end. -/
def setA : List (String × α) → String → α → List (String × α)
  | [], key, v => [(key, v)]
  | (k, w) :: rest, key, v =>
    if k == key then (k, v) :: rest else (k, w) :: setA rest key v

/-- Lifecycle notifications emitted by the instance. -/
inductive Event where
  | model_update
  | transformed
  | model_save
  | model_loaded
  | model_set
  deriving DecidableEq, Repr

/-- The mutable state of a `Synthesizer` instance.  `Option`-typed fields
can hold JS `undefined`; the constructor populates all of them but
`extractDataFromModel` can overwrite them with `undefined`. -/
structure SynthState where
  name : Option String
  rules : Option (List Rule)
  skipKeys : Option (List String)
  defaultRuleMode : String
  defaultRuleValue : Rat
  defaultRuleOperator : String
  keepAutogeneratedRules : Bool
  filterData : Option (String → JSVal → Bool)
  translateKey : Option (String → String)
  translateValue : Option (String → JSVal → JSVal)
  model : Bool

/-- `Number(((count / total) * 100).toFixed(1))`: the percentage of a
count, rounded to one decimal place. -/
def percentageOf (count total : Nat) : Rat :=
  (round ((1000 * count : Rat) / total) : Int) / 10

/-- One ranked entry: value key, count, percentage. -/
abbrev Entry := String × Nat × Rat

/-- The compute-percentage stage applied to one field tally:
`Object.entries(v.values)` enumerates the plain values object in
`[[OwnPropertyKeys]]` order (array-index value keys ascending first,
then the rest in creation order), with the percentage attached. -/
def pctEntries (root : Root) : List Entry :=
  (jsEntries root.values).map (fun p => (p.1, p.2, percentageOf p.2 root.total))

/-- Insert an entry into a list, before the first entry of strictly
smaller count (so equal counts keep the earlier entry first). -/
def insertCD (x : Entry) : List Entry → List Entry
  | [] => [x]
  | y :: ys => if y.2.1 ≤ x.2.1 then x :: y :: ys else y :: insertCD x ys

/-- The sort stage `sort((a, b) => b[1].count - a[1].count)`.
`Array.prototype.sort` is stable and comparator-consistent, which
determines its output uniquely: the stable non-increasing-by-count
reordering, modelled here as a stable insertion sort. -/
def sortCD : List Entry → List Entry
  | [] => []
  | x :: xs => insertCD x (sortCD xs)

/-- The ranking of every tracked field: percentages attached, then the
stable descending-by-count sort, in `Map` iteration order. -/
def rankStage (results : List (String × Root)) : List (String × List Entry) :=
  results.map (fun p => (p.1, sortCD (pctEntries p.2)))

/-- `ToIntegerOrInfinity`: truncation of a JS number toward zero. -/
def ratTrunc (q : Rat) : Int :=
  if q < 0 then -(Int.floor (-q)) else Int.floor q

/-- `Array.prototype.slice(0, endIdx)`: a negative end counts back from
the end of the array. -/
def jsSlice (l : List α) (endIdx : Rat) : List α :=
  let e := ratTrunc endIdx
  if e < 0 then l.take ((l.length : Int) + e).toNat else l.take e.toNat

/-- The selection of a `"top"` rule: the first `threshold` ranked value
keys via `v.slice(0, threshold).map(k => k[0])`. -/
def topSelect (threshold : Rat) (v : List Entry) : List String :=
  (jsSlice v threshold).map (fun e => e.1)

/-- The filter of one `switch` case of the `"percentage"` mode; the
`default` case (any unrecognized operator) compares with `>=`. -/
def opFilter (c : String) (threshold : Rat) (v : List Entry) : List Entry :=
  match c with
  | "equal" => v.filter (fun j => decide (j.2.2 = threshold))
  | "lt" => v.filter (fun j => decide (j.2.2 < threshold))
  | "lte" => v.filter (fun j => decide (j.2.2 ≤ threshold))
  | "gt" => v.filter (fun j => decide (j.2.2 > threshold))
  | _ => v.filter (fun j => decide (j.2.2 ≥ threshold))

/-- The `switch (operator)` of the `"percentage"` mode has no `break`
statements, so control falls through from the matched case through every
later case, `default` included; this lists the cases executed for each
operator value. -/
def pctCases : Option String → List String
  | some "equal" => ["equal", "lt", "lte", "gt", "gte"]
  | some "lt" => ["lt", "lte", "gt", "gte"]
  | some "lte" => ["lte", "gt", "gte"]
  | some "gt" => ["gt", "gte"]
  | _ => ["gte"]

/-- The net `"percentage"` selection: every executed case reassigns
`finalResults[k]`, so the last executed case wins.  The initial `[]` is
never the result because the executed case list is nonempty. -/
def pctSelect (op : Option String) (threshold : Rat) (v : List Entry) : List Entry :=
  (pctCases op).foldl (fun _ c => opFilter c threshold v) []

/-- `if (cap) { ... slice(0, cap) }` after the switch: a zero cap is
falsy and leaves the selection alone. -/
def capApply (cap : Option Rat) (sel : List α) : List α :=
  match cap with
  | some c => if c ≠ 0 then jsSlice sel c else sel
  | none => sel

/-- Rule application for one ranked field: destructuring
`regole.find(f => f.key === k)` throws on `undefined` when no rule
matches; `"top"` and `"percentage"` assign the selection (and the stats
when requested), any other mode assigns nothing. -/
def applyRulesStep (regole : List Rule) (includeStats : Bool)
    (acc : List (String × List String) × List (String × List Entry))
    (kv : String × List Entry) :
    Except String (List (String × List String) × List (String × List Entry)) :=
  match regole.find? (fun f => f.key == kv.1) with
  | none => .error "TypeError: Cannot destructure property of undefined"
  | some r =>
    if r.mode == "top" then
      .ok (setA acc.1 kv.1 (topSelect r.threshold kv.2),
           if includeStats then setA acc.2 kv.1 (jsSlice kv.2 r.threshold) else acc.2)
    else if r.mode == "percentage" then
      let sel := capApply r.cap (pctSelect r.operator r.threshold kv.2)
      .ok (setA acc.1 kv.1 (sel.map (fun e => e.1)),
           if includeStats then setA acc.2 kv.1 sel else acc.2)
    else
      .ok acc

/-- The apply-rules loop over `Object.entries(sortedResults)`. -/
def applyRulesRec (regole : List Rule) (includeStats : Bool) :
    List (String × List Entry) →
    List (String × List String) × List (String × List Entry) →
    Except String (List (String × List String) × List (String × List Entry))
  | [], acc => .ok acc
  | kv :: rest, acc =>
    match applyRulesStep regole includeStats acc kv with
    | .error e => .error e
    | .ok acc2 => applyRulesRec regole includeStats rest acc2

/-- `if (dataPath) doc = get(doc, dataPath)`: the empty string is falsy
and performs no projection. -/
def projectDoc (dataPath : Option String) (doc : JSVal) : JSVal :=
  match dataPath with
  | some p => if p == "" then doc else jsGet doc p
  | none => doc

/-- Keys in order of first insertion into a `Set`. -/
def dedupInto (acc : List String) : List String → List String
  | [] => acc
  | k :: rest => dedupInto (if acc.contains k then acc else acc ++ [k]) rest

/-- First-encounter order deduplication (JS `Set` insertion order). -/
def dedupFirst (ks : List String) : List String :=
  dedupInto [] ks

/-- The `rulesSet.forEach` loop of `_buildDefaultRules`: each surviving
key becomes `{ key, threshold: defaultRuleValue, mode: defaultRuleMode }`.
`this.filterData(key)` passes a single argument, so the value argument is
`undefined`. -/
def buildDefaultRulesRec (s : SynthState) : List String → List Rule → Except String (List Rule)
  | [], rs => .ok rs
  | k :: rest, rs =>
    match s.skipKeys with
    | none => .error "TypeError: this.skipKeys is undefined"
    | some sk =>
      if sk.contains k then buildDefaultRulesRec s rest rs
      else
        match s.filterData with
        | none => .error "TypeError: this.filterData is not a function"
        | some fd =>
          if fd k .undef then buildDefaultRulesRec s rest rs
          else
            buildDefaultRulesRec s rest
              (rs ++ [{ key := k, threshold := s.defaultRuleValue, mode := s.defaultRuleMode }])

/-- `_buildDefaultRules`: collects the projected key set of the document
batch in first-encounter order, then builds one default rule per
non-skipped, non-filtered key. -/
def buildDefaultRules (s : SynthState) (docs : List JSVal) (dataPath : Option String) :
    Except String (List Rule) :=
  buildDefaultRulesRec s (dedupFirst ((docs.map (projectDoc dataPath)).flatMap jsKeys)) []

/-- `fields.forEach(f => results.set(f, { total: 0, values: {} }))`. -/
def initResults : List String → List (String × Root) → List (String × Root)
  | [], m => m
  | f :: rest, m => initResults rest (setA m f ⟨0, []⟩)

/-- The body of the tally loop for one document and one rule key:
skipped keys contribute nothing; otherwise the key is translated, the
root looked up (a miss gives `undefined`), the field resolved on the
document, and the observations applied. -/
def tallyField (s : SynthState) (doc : JSVal) (results : List (String × Root)) (key : String) :
    Except String (List (String × Root)) :=
  match s.skipKeys with
  | none => .error "TypeError: this.skipKeys is undefined"
  | some sk =>
    if sk.contains key then .ok results
    else
      match s.translateKey with
      | none => .error "TypeError: this.translateKey is not a function"
      | some tk =>
        let field := tk key
        match applyValueE s.filterData s.translateValue field (jsGet doc field) (getA results field) with
        | .error e => .error e
        | .ok (some root) => .ok (setA results field root)
        | .ok none => .ok results

/-- The inner `for (const key of fields)` loop. -/
def tallyFieldsRec (s : SynthState) (doc : JSVal) :
    List String → List (String × Root) → Except String (List (String × Root))
  | [], res => .ok res
  | k :: rest, res =>
    match tallyField s doc res k with
    | .error e => .error e
    | .ok res2 => tallyFieldsRec s doc rest res2

/-- The outer `for await (let doc of docs)` loop, with the per-document
`dataPath` projection. -/
def tallyDocsRec (s : SynthState) (dataPath : Option String) (fields : List String) :
    List JSVal → List (String × Root) → Except String (List (String × Root))
  | [], res => .ok res
  | doc :: rest, res =>
    match tallyFieldsRec s (projectDoc dataPath doc) fields res with
    | .error e => .error e
    | .ok res2 => tallyDocsRec s dataPath fields rest res2

/-- The document source of a `transform` call: `isStream` is the duck
typing check `checkStream` (a `pipe` method); `items` is the finite
sequence the `for await` loop consumes. -/
structure DocsSource where
  isStream : Bool
  items : List JSVal

/-- The argument object of `transform`.  `outputStream` is `some b` for
a provided sink, where `b` is whether `checkStream` accepts it. -/
structure TransformArgs where
  docs : DocsSource
  rules : Option (List Rule) := none
  dataPath : Option String := none
  includeStats : Bool := false
  outputStream : Option Bool := none
  cb : Bool := false

/-- The transform result: `finalResults` and `stats`.  The source
returns `[finalResults, stats]` when `includeStats` and bare
`finalResults` otherwise; both components are modelled throughout. -/
structure TOut where
  selections : List (String × List String)
  stats : List (String × List Entry)
  deriving DecidableEq, Repr

def streamErrMsg : String := "You Must Specify Rules when using a Stream"

def noRulesErrMsg : String := "Not able to transform without rules"

def outputStreamErrMsg : String := "outputStream must be a writable stream"

/-- `transform` after rule resolution: the emptiness check
(`!regole?.length > 0`), the `outputStream` check (the `cb` check
`cb && !typeof cb === "function"` can never throw since `!typeof cb`
is always `false`), the tally pass, ranking, rule application, and the
`transformed` notification on success. -/
def transformCore (s' : SynthState) (evs : List Event) (regole : List Rule)
    (a : TransformArgs) : SynthState × List Event × Except String TOut :=
  if regole.isEmpty then (s', evs, .error noRulesErrMsg)
  else
    match a.outputStream with
    | some false => (s', evs, .error outputStreamErrMsg)
    | _ =>
      let fields := regole.map (fun r => r.key)
      match tallyDocsRec s' a.dataPath fields a.docs.items (initResults fields []) with
      | .error e => (s', evs, .error e)
      | .ok results =>
        match applyRulesRec regole a.includeStats (jsEntries (rankStage results)) ([], []) with
        | .error e => (s', evs, .error e)
        | .ok out => (s', evs ++ [.transformed], .ok ⟨out.1, out.2⟩)

/-- `Synthesizer.transform`: the stream guard
`checkStream(docs) && (!rules || !this.rules)`, then rule resolution
(call-level rules, else instance rules, else auto-derivation, storing
the derived rules and notifying `model_update` when
`keepAutogeneratedRules` is set), then `transformCore`. -/
def transformModel (s : SynthState) (a : TransformArgs) :
    SynthState × List Event × Except String TOut :=
  if a.docs.isStream && (a.rules.isNone || s.rules.isNone) then
    (s, [], .error streamErrMsg)
  else
    match a.rules with
    | some r => transformCore s [] r a
    | none =>
      match s.rules with
      | some r => transformCore s [] r a
      | none =>
        match buildDefaultRules s a.docs.items a.dataPath with
        | .error e => (s, [], .error e)
        | .ok auto =>
          if s.keepAutogeneratedRules then
            transformCore { s with rules := some auto } [.model_update] auto a
          else
            transformCore s [] auto a

/-- The argument object of `setParams`. -/
structure SetParamsArgs where
  rules : Option (List Rule) := none
  skipFields : Option (List String) := none
  filterData : Option (String → JSVal → Bool) := none
  translateKey : Option (String → String) := none
  translateValue : Option (String → JSVal → JSVal) := none

/-- `Synthesizer.setParams`: truthy-provided fields overwrite the
instance fields (`skipFields` lands in `this.skipKeys`), then
`model_update` is emitted.  The `translateValue` branch of the source
reads `this.translateValue` without assigning to it, so a provided
`translateValue` hook is silently discarded. -/
def setParams (s : SynthState) (p : SetParamsArgs) : SynthState × List Event :=
  let s1 := match p.rules with | some r => { s with rules := some r } | none => s
  let s2 := match p.skipFields with | some k => { s1 with skipKeys := some k } | none => s1
  let s3 := match p.filterData with | some f => { s2 with filterData := some f } | none => s2
  let s4 := match p.translateKey with | some f => { s3 with translateKey := some f } | none => s3
  let s5 := match p.translateValue with | some _ => s4 | none => s4
  (s5, [Event.model_update])

/-- A value of a serialized model record.  `serialize-javascript`
renders functions as their source text and `eval` restores them as
behaviorally equivalent callables, so the codec round trip is modelled
as the identity on this record. -/
inductive MVal where
  | undef
  | str (s : String)
  | num (q : Rat)
  | boolv (b : Bool)
  | ruleList (rs : List Rule)
  | strList (l : List String)
  | fnFilter (f : String → JSVal → Bool)
  | fnKey (f : String → String)
  | fnValue (f : String → JSVal → JSVal)

/-- `Synthesizer.getModel`: the model record built field by field from
the instance (note the third entry is stored under the property name
`skipKeys`).  `creationDate` is the external wall clock, passed in as
`now`. -/
def getModelRec (s : SynthState) (now : Rat) : List (String × MVal) :=
  [("name", match s.name with | some v => .str v | none => .undef),
   ("rules", match s.rules with | some r => .ruleList r | none => .undef),
   ("skipKeys", match s.skipKeys with | some k => .strList k | none => .undef),
   ("filterData", match s.filterData with | some f => .fnFilter f | none => .undef),
   ("translateKey", match s.translateKey with | some f => .fnKey f | none => .undef),
   ("translateValue", match s.translateValue with | some f => .fnValue f | none => .undef),
   ("defaultRuleMode", .str s.defaultRuleMode),
   ("defaultRuleValue", .num s.defaultRuleValue),
   ("defaultRuleOperator", .str s.defaultRuleOperator),
   ("keepAutogeneratedRules", .boolv s.keepAutogeneratedRules),
   ("creationDate", .num now)]

/-- `Synthesizer.extractDataFromModel` after decompression and `eval`:
each instance field is assigned from the decoded record, `undefined`
when the property is absent or not of the rendered shape.  The third
assignment reads the property `skipFields`, exactly as the source does
(`this.skipKeys = model.skipFields`).  The non-`Option` default fields
fall back to zero values where JS would store `undefined`; every record
produced by `getModelRec` carries them, so the fallback is never hit on
a round trip. -/
def extractDataFromModel (s : SynthState) (m : List (String × MVal)) : SynthState :=
  { s with
    name := match getA m "name" with | some (.str v) => some v | _ => none
    rules := match getA m "rules" with | some (.ruleList r) => some r | _ => none
    skipKeys := match getA m "skipFields" with | some (.strList k) => some k | _ => none
    filterData := match getA m "filterData" with | some (.fnFilter f) => some f | _ => none
    translateKey := match getA m "translateKey" with | some (.fnKey f) => some f | _ => none
    translateValue := match getA m "translateValue" with | some (.fnValue f) => some f | _ => none
    defaultRuleMode := match getA m "defaultRuleMode" with | some (.str v) => v | _ => ""
    defaultRuleValue := match getA m "defaultRuleValue" with | some (.num v) => v | _ => 0
    defaultRuleOperator := match getA m "defaultRuleOperator" with | some (.str v) => v | _ => ""
    keepAutogeneratedRules := match getA m "keepAutogeneratedRules" with | some (.boolv v) => v | _ => false }

/-- `Synthesizer.saveModel`: fails before any notification when no
directory is given (the empty string is falsy) or when the instance
holds no model; on success writes the artifact (external filesystem)
and emits `model_save`.  No branch mutates the configuration. -/
def saveModelM (s : SynthState) (dir : Option String) : SynthState × List Event × Except String Unit :=
  match dir with
  | none => (s, [], .error "No Path to Save Model")
  | some d =>
    if d == "" then (s, [], .error "No Path to Save Model")
    else if s.model then (s, [.model_save], .ok ())
    else (s, [], .error "No Model To Save")

/-- `Synthesizer.loadModel`: `fs.readFileSync`, `unzipSync` and the
`eval` reconstruction are external and modelled by the `Except`-valued
`raw`; a failure there propagates before any assignment or
notification.  On success the record is extracted, `this.model` is set
and `model_loaded` is emitted. -/
def loadModelM (s : SynthState) (raw : Except String (List (String × MVal))) :
    SynthState × List Event × Except String Unit :=
  match raw with
  | .error e => (s, [], .error e)
  | .ok m => ({ extractDataFromModel s m with model := true }, [.model_loaded], .ok ())

/-- The observation loop over a list of resolved values with both hooks
present and the root present (the pure core of `obsListE`). -/
def processList (fd : String → JSVal → Bool) (tv : String → JSVal → JSVal)
    (field : String) : List JSVal → Root → Root
  | [], root => root
  | v :: rest, root => processList fd tv field rest (processObservation fd tv field v root)

/-- The pure core of `applyValueE` when both hooks and the root are
present. -/
def applyValuePure (fd : String → JSVal → Bool) (tv : String → JSVal → JSVal)
    (field : String) (value : JSVal) (root : Root) : Root :=
  match value with
  | .jarr l => processList fd tv field l root
  | v => processObservation fd tv field v root

/-- The keys actually tallied from a list of observations, in order:
observations dropped by `filterData` or falsy after `translateValue`
contribute nothing, the rest contribute their translated value key. -/
def talliedKeys (fd : String → JSVal → Bool) (tv : String → JSVal → JSVal)
    (field : String) (vs : List JSVal) : List String :=
  vs.filterMap (fun v =>
    if fd field v then none
    else if (tv field v).falsy then none else some (tv field v).toKey)

/-- The sum of the counts of a values map. -/
def sumCounts (values : List (String × Nat)) : Nat :=
  (values.map Prod.snd).sum

/-- A baseline instance configured with explicit defaults and identity
hooks, as the constructor produces it for `new Synthesizer({})`. -/
def exState : SynthState := {
  name := some "model_0",
  rules := none,
  skipKeys := some [],
  defaultRuleMode := "top",
  defaultRuleValue := 3,
  defaultRuleOperator := "gte",
  keepAutogeneratedRules := false,
  filterData := some (fun _ _ => false),
  translateKey := some (fun k => k),
  translateValue := some (fun _ v => v),
  model := false }

/-- The worked document batch of the specification:
`[{a:"x"}, {a:"x"}, {a:"y"}]`. -/
def docsXXY : List JSVal :=
  [.jobj [("a", .jstr "x")], .jobj [("a", .jstr "x")], .jobj [("a", .jstr "y")]]

/-! ### Association map lemmas -/

theorem getA_setA_self (m : List (String × α)) (k : String) (v : α) :
    getA (setA m k v) k = some v := by
  induction m with
  | nil => simp [setA, getA]
  | cons p rest ih =>
    obtain ⟨k', w⟩ := p
    by_cases h : k' = k
    · simp [setA, getA, h]
    · simp only [setA, getA, beq_iff_eq, if_neg h]
      exact ih

theorem getA_setA_other (m : List (String × α)) (k k' : String) (v : α) (h : k' ≠ k) :
    getA (setA m k v) k' = getA m k' := by
  induction m with
  | nil => simp [setA, getA, beq_iff_eq, (show k ≠ k' from fun e => h e.symm)]
  | cons p rest ih =>
    obtain ⟨k0, w⟩ := p
    by_cases h0 : k0 = k
    · subst h0
      simp [setA, getA, beq_iff_eq, (show k0 ≠ k' from fun e => h e.symm)]
    · simp only [setA, beq_iff_eq, if_neg h0, getA]
      by_cases h1 : k0 = k'
      · simp [h1]
      · simp [h1, ih]

theorem getA_isSome_setA (m : List (String × α)) (k f : String) (v : α)
    (h : (getA m f).isSome) : (getA (setA m k v) f).isSome := by
  by_cases hk : f = k
  · subst hk; simp [getA_setA_self]
  · rw [getA_setA_other m k f v hk]; exact h

theorem getA_mem (m : List (String × α)) (k : String) (v : α)
    (h : getA m k = some v) : (k, v) ∈ m := by
  induction m with
  | nil => simp [getA] at h
  | cons p rest ih =>
    obtain ⟨k0, w⟩ := p
    by_cases h0 : k0 = k
    · subst h0
      simp only [getA, beq_self_eq_true, if_pos] at h
      simp [Option.some_inj.mp h]
    · simp only [getA, beq_iff_eq, if_neg h0] at h
      exact List.mem_cons_of_mem _ (ih h)

theorem mem_setA (m : List (String × α)) (k : String) (v : α) (p : String × α)
    (h : p ∈ setA m k v) : p = (k, v) ∨ p ∈ m := by
  induction m with
  | nil => simpa [setA] using h
  | cons q rest ih =>
    obtain ⟨k0, w⟩ := q
    by_cases h0 : k0 = k
    · subst h0
      simp only [setA, beq_self_eq_true, if_pos] at h
      rcases List.mem_cons.mp h with h1 | h1
      · exact Or.inl (by simpa using h1)
      · exact Or.inr (List.mem_cons_of_mem _ h1)
    · simp only [setA, beq_iff_eq, if_neg h0] at h
      rcases List.mem_cons.mp h with h1 | h1
      · exact Or.inr (by simp [h1])
      · rcases ih h1 with h2 | h2
        · exact Or.inl h2
        · exact Or.inr (List.mem_cons_of_mem _ h2)

theorem keys_setA_present (m : List (String × α)) (k : String) (v : α)
    (h : (getA m k).isSome) : (setA m k v).map Prod.fst = m.map Prod.fst := by
  induction m with
  | nil => simp [getA] at h
  | cons q rest ih =>
    obtain ⟨k0, w⟩ := q
    by_cases h0 : k0 = k
    · simp [setA, h0]
    · simp only [getA, beq_iff_eq, if_neg h0] at h
      simp [setA, beq_iff_eq, if_neg h0, ih h]

theorem getA_isSome_iff_contains (m : List (String × α)) (k : String) :
    (getA m k).isSome = (m.map Prod.fst).contains k := by
  induction m with
  | nil => simp [getA]
  | cons q rest ih =>
    obtain ⟨k0, w⟩ := q
    by_cases h0 : k0 = k
    · subst h0; simp [getA, List.contains_cons]
    · have hkk0 : (k == k0) = false :=
        beq_eq_false_iff_ne.mpr (show k ≠ k0 from fun e => h0 e.symm)
      simp only [getA, beq_iff_eq, if_neg h0, List.map_cons, List.contains_cons, hkk0,
        Bool.false_or]
      exact ih

/-! ### Tally lemmas -/

theorem keys_bumpValue (values : List (String × Nat)) (k : String) :
    (bumpValue values k).map Prod.fst =
      if (values.map Prod.fst).contains k then values.map Prod.fst
      else values.map Prod.fst ++ [k] := by
  induction values with
  | nil => simp [bumpValue]
  | cons q rest ih =>
    obtain ⟨k0, c⟩ := q
    by_cases h0 : k0 = k
    · subst h0; simp [bumpValue, List.contains_cons]
    · have hkk0 : (k == k0) = false :=
        beq_eq_false_iff_ne.mpr (show k ≠ k0 from fun e => h0 e.symm)
      simp only [bumpValue, beq_iff_eq, if_neg h0, List.map_cons, List.contains_cons, hkk0,
        Bool.false_or]
      rw [ih]
      by_cases h1 : (rest.map Prod.fst).contains k
      · rw [if_pos h1, if_pos h1]
      · rw [if_neg h1, if_neg h1]
        simp

theorem sumCounts_bumpValue (values : List (String × Nat)) (k : String) :
    sumCounts (bumpValue values k) = sumCounts values + 1 := by
  induction values with
  | nil => simp [bumpValue, sumCounts]
  | cons q rest ih =>
    obtain ⟨k0, c⟩ := q
    by_cases h0 : k0 = k
    · simp [bumpValue, h0, sumCounts]
      omega
    · simp only [bumpValue, beq_iff_eq, if_neg h0]
      simp only [sumCounts, List.map_cons, List.sum_cons] at ih ⊢
      omega

theorem getA_bumpValue_self (values : List (String × Nat)) (k : String) :
    getA (bumpValue values k) k = some ((getA values k).getD 0 + 1) := by
  induction values with
  | nil => simp [bumpValue, getA]
  | cons q rest ih =>
    obtain ⟨k0, c⟩ := q
    by_cases h0 : k0 = k
    · simp [bumpValue, getA, h0]
    · simp [bumpValue, getA, beq_iff_eq, h0, ih]

theorem getA_bumpValue_other (values : List (String × Nat)) (k k' : String) (h : k' ≠ k) :
    getA (bumpValue values k) k' = getA values k' := by
  induction values with
  | nil => simp [bumpValue, getA, beq_iff_eq, Ne.symm h]
  | cons q rest ih =>
    obtain ⟨k0, c⟩ := q
    by_cases h0 : k0 = k
    · subst h0
      simp [bumpValue, getA, beq_iff_eq, Ne.symm h]
    · simp [bumpValue, getA, beq_iff_eq, h0, ih]

/-! ### Sorting lemmas -/

theorem mem_insertCD (x a : Entry) (l : List Entry) (h : a ∈ insertCD x l) :
    a = x ∨ a ∈ l := by
  induction l with
  | nil => simpa [insertCD] using h
  | cons y ys ih =>
    by_cases hc : y.2.1 ≤ x.2.1
    · simp only [insertCD, if_pos hc] at h
      rcases List.mem_cons.mp h with h1 | h1
      · exact Or.inl h1
      · exact Or.inr h1
    · simp only [insertCD, if_neg hc] at h
      rcases List.mem_cons.mp h with h1 | h1
      · exact Or.inr (by simp [h1])
      · rcases ih h1 with h2 | h2
        · exact Or.inl h2
        · exact Or.inr (List.mem_cons_of_mem _ h2)

theorem insertCD_pairwise (x : Entry) (l : List Entry)
    (h : l.Pairwise (fun a b => b.2.1 ≤ a.2.1)) :
    (insertCD x l).Pairwise (fun a b => b.2.1 ≤ a.2.1) := by
  induction l with
  | nil => simp [insertCD]
  | cons y ys ih =>
    rcases List.pairwise_cons.mp h with ⟨hy, hys⟩
    by_cases hc : y.2.1 ≤ x.2.1
    · simp only [insertCD, if_pos hc]
      refine List.pairwise_cons.mpr ⟨?_, h⟩
      intro z hz
      rcases List.mem_cons.mp hz with h1 | h1
      · subst h1; exact hc
      · exact le_trans (hy z h1) hc
    · simp only [insertCD, if_neg hc]
      refine List.pairwise_cons.mpr ⟨?_, ih hys⟩
      intro z hz
      rcases mem_insertCD x z ys hz with h1 | h1
      · subst h1; exact le_of_not_le hc
      · exact hy z h1

theorem sortCD_pairwise (l : List Entry) :
    (sortCD l).Pairwise (fun a b => b.2.1 ≤ a.2.1) := by
  induction l with
  | nil => simp [sortCD]
  | cons x xs ih => exact insertCD_pairwise x (sortCD xs) ih

theorem insertCD_filter (x : Entry) (l : List Entry) (c : Nat) :
    (insertCD x l).filter (fun e => e.2.1 == c) =
      if x.2.1 = c then x :: l.filter (fun e => e.2.1 == c)
      else l.filter (fun e => e.2.1 == c) := by
  induction l with
  | nil =>
    by_cases hx : x.2.1 = c
    · simp [insertCD, List.filter_cons, hx]
    · simp [insertCD, List.filter_cons, hx]
  | cons y ys ih =>
    by_cases hc : y.2.1 ≤ x.2.1
    · simp only [insertCD, if_pos hc]
      by_cases hx : x.2.1 = c
      · simp [List.filter_cons, hx]
      · simp [List.filter_cons, hx]
    · simp only [insertCD, if_neg hc]
      have hxy : x.2.1 < y.2.1 := lt_of_not_le hc
      by_cases hy : y.2.1 = c
      · have hx : ¬x.2.1 = c := by omega
        simp [List.filter_cons, hy, hx, ih]
      · by_cases hx : x.2.1 = c
        · simp [List.filter_cons, hy, hx, ih]
        · simp [List.filter_cons, hy, hx, ih]

theorem sortCD_filter (l : List Entry) (c : Nat) :
    (sortCD l).filter (fun e => e.2.1 == c) = l.filter (fun e => e.2.1 == c) := by
  induction l with
  | nil => simp [sortCD]
  | cons x xs ih =>
    simp only [sortCD]
    rw [insertCD_filter]
    by_cases hx : x.2.1 = c
    · simp [List.filter_cons, hx, ih]
    · simp [List.filter_cons, hx, ih]

/-! ### Property-enumeration lemmas -/

theorem mem_insertIdx (x a : String × α) (l : List (String × α)) (h : a ∈ insertIdx x l) :
    a = x ∨ a ∈ l := by
  induction l with
  | nil =>
    simp only [insertIdx, List.mem_singleton] at h
    exact Or.inl h
  | cons y ys ih =>
    by_cases hc : (arrayIndex? x.1).getD 0 ≤ (arrayIndex? y.1).getD 0
    · simp only [insertIdx, if_pos hc] at h
      rcases List.mem_cons.mp h with h1 | h1
      · exact Or.inl h1
      · exact Or.inr h1
    · simp only [insertIdx, if_neg hc] at h
      rcases List.mem_cons.mp h with h1 | h1
      · exact Or.inr (by simp [h1])
      · rcases ih h1 with h2 | h2
        · exact Or.inl h2
        · exact Or.inr (List.mem_cons_of_mem _ h2)

theorem mem_sortIdx (a : String × α) (l : List (String × α)) (h : a ∈ sortIdx l) :
    a ∈ l := by
  induction l with
  | nil => simp [sortIdx] at h
  | cons x xs ih =>
    simp only [sortIdx] at h
    rcases mem_insertIdx x a (sortIdx xs) h with h1 | h1
    · simp [h1]
    · exact List.mem_cons_of_mem _ (ih h1)

theorem mem_jsEntries (a : String × α) (l : List (String × α)) (h : a ∈ jsEntries l) :
    a ∈ l := by
  unfold jsEntries at h
  rcases List.mem_append.mp h with h1 | h1
  · exact List.mem_filter.mp (mem_sortIdx a _ h1) |>.1
  · exact List.mem_filter.mp h1 |>.1

theorem insertIdx_pairwise (x : String × α) (l : List (String × α))
    (h : l.Pairwise (fun a b => (arrayIndex? a.1).getD 0 ≤ (arrayIndex? b.1).getD 0)) :
    (insertIdx x l).Pairwise
      (fun a b => (arrayIndex? a.1).getD 0 ≤ (arrayIndex? b.1).getD 0) := by
  induction l with
  | nil => simp [insertIdx]
  | cons y ys ih =>
    rcases List.pairwise_cons.mp h with ⟨hy, hys⟩
    by_cases hc : (arrayIndex? x.1).getD 0 ≤ (arrayIndex? y.1).getD 0
    · simp only [insertIdx, if_pos hc]
      refine List.pairwise_cons.mpr ⟨?_, h⟩
      intro z hz
      rcases List.mem_cons.mp hz with h1 | h1
      · subst h1; exact hc
      · exact le_trans hc (hy z h1)
    · simp only [insertIdx, if_neg hc]
      refine List.pairwise_cons.mpr ⟨?_, ih hys⟩
      intro z hz
      rcases mem_insertIdx x z ys hz with h1 | h1
      · subst h1; exact le_of_not_le hc
      · exact hy z h1

theorem sortIdx_pairwise (l : List (String × α)) :
    (sortIdx l).Pairwise
      (fun a b => (arrayIndex? a.1).getD 0 ≤ (arrayIndex? b.1).getD 0) := by
  induction l with
  | nil => simp [sortIdx]
  | cons x xs ih => exact insertIdx_pairwise x (sortIdx xs) ih

theorem map_fst_filter_nonIdx (l : List (String × α)) :
    (l.filter (fun p => (arrayIndex? p.1).isNone)).map Prod.fst
      = (l.map Prod.fst).filter (fun k => (arrayIndex? k).isNone) := by
  induction l with
  | nil => rfl
  | cons p rest ih =>
    by_cases hp : (arrayIndex? p.1).isNone
    · simp [List.filter_cons, hp, ih]
    · simp [List.filter_cons, hp, ih]

theorem jsEntries_keys_nonIdx (l : List (String × α)) :
    ((jsEntries l).map Prod.fst).filter (fun k => (arrayIndex? k).isNone)
      = (l.map Prod.fst).filter (fun k => (arrayIndex? k).isNone) := by
  unfold jsEntries
  rw [List.map_append, List.filter_append]
  have h1 : ((sortIdx (l.filter (fun p => (arrayIndex? p.1).isSome))).map Prod.fst).filter
      (fun k => (arrayIndex? k).isNone) = [] := by
    rw [List.filter_eq_nil_iff]
    intro k hk
    obtain ⟨x, hx, hfx⟩ := List.mem_map.mp hk
    have hpx := (List.mem_filter.mp (mem_sortIdx x _ hx)).2
    subst hfx
    intro hn
    rw [Option.isNone_iff_eq_none] at hn
    rw [hn] at hpx
    simp at hpx
  have h2 : ((l.filter (fun p => (arrayIndex? p.1).isNone)).map Prod.fst).filter
      (fun k => (arrayIndex? k).isNone)
      = (l.filter (fun p => (arrayIndex? p.1).isNone)).map Prod.fst := by
    rw [List.filter_eq_self]
    intro k hk
    obtain ⟨x, hx, hfx⟩ := List.mem_map.mp hk
    subst hfx
    exact (List.mem_filter.mp hx).2
  rw [h1, h2, List.nil_append]
  exact map_fst_filter_nonIdx l

theorem jsEntries_keys_idx_sorted (l : List (String × α)) :
    (((jsEntries l).map Prod.fst).filter (fun k => (arrayIndex? k).isSome)).Pairwise
      (fun a b => (arrayIndex? a).getD 0 ≤ (arrayIndex? b).getD 0) := by
  unfold jsEntries
  rw [List.map_append, List.filter_append]
  have h1 : ((sortIdx (l.filter (fun p => (arrayIndex? p.1).isSome))).map Prod.fst).filter
      (fun k => (arrayIndex? k).isSome)
      = (sortIdx (l.filter (fun p => (arrayIndex? p.1).isSome))).map Prod.fst := by
    rw [List.filter_eq_self]
    intro k hk
    obtain ⟨x, hx, hfx⟩ := List.mem_map.mp hk
    subst hfx
    exact (List.mem_filter.mp (mem_sortIdx x _ hx)).2
  have h2 : ((l.filter (fun p => (arrayIndex? p.1).isNone)).map Prod.fst).filter
      (fun k => (arrayIndex? k).isSome) = [] := by
    rw [List.filter_eq_nil_iff]
    intro k hk
    obtain ⟨x, hx, hfx⟩ := List.mem_map.mp hk
    have hpx := (List.mem_filter.mp hx).2
    subst hfx
    intro hs
    rw [Option.isNone_iff_eq_none] at hpx
    rw [hpx] at hs
    simp at hs
  rw [h1, h2, List.append_nil]
  rw [List.pairwise_map]
  exact sortIdx_pairwise _

/-- Attaching percentages does not change the enumerated key list. -/
theorem pctEntries_keys (root : Root) :
    (pctEntries root).map Prod.fst = (jsEntries root.values).map Prod.fst := by
  unfold pctEntries
  generalize jsEntries root.values = m
  induction m with
  | nil => rfl
  | cons p rest ih => simp [ih]

/-! ### Encounter-order lemmas -/

theorem keys_processList (fd : String → JSVal → Bool) (tv : String → JSVal → JSVal)
    (field : String) (vs : List JSVal) (root : Root) :
    (processList fd tv field vs root).values.map Prod.fst =
      dedupInto (root.values.map Prod.fst) (talliedKeys fd tv field vs) := by
  induction vs generalizing root with
  | nil => simp [processList, talliedKeys, dedupInto]
  | cons v rest ih =>
    simp only [processList]
    by_cases hf : fd field v
    · have h1 : processObservation fd tv field v root = root := by
        simp [processObservation, hf]
      have h2 : talliedKeys fd tv field (v :: rest) = talliedKeys fd tv field rest := by
        simp [talliedKeys, hf]
      rw [h1, h2]
      exact ih root
    · by_cases hfal : (tv field v).falsy
      · have h1 : processObservation fd tv field v root = root := by
          simp [processObservation, hf, addValue, hfal]
        have h2 : talliedKeys fd tv field (v :: rest) = talliedKeys fd tv field rest := by
          simp [talliedKeys, hf, hfal]
        rw [h1, h2]
        exact ih root
      · have h1 : processObservation fd tv field v root =
            { total := root.total + 1, values := bumpValue root.values (tv field v).toKey } := by
          simp [processObservation, hf, addValue, hfal]
        have h2 : talliedKeys fd tv field (v :: rest) =
            (tv field v).toKey :: talliedKeys fd tv field rest := by
          simp [talliedKeys, hf, hfal]
        rw [h1, h2, ih]
        simp only [dedupInto]
        congr 1
        exact keys_bumpValue root.values (tv field v).toKey

/-! ### Pure cores of the exception-aware loops -/

theorem obsE_some (fd : String → JSVal → Bool) (tv : String → JSVal → JSVal)
    (field : String) (v : JSVal) (root : Root) :
    obsE (some fd) (some tv) field v (some root) =
      .ok (some (processObservation fd tv field v root)) := by
  by_cases hf : fd field v
  · simp [obsE, hf, processObservation]
  · by_cases hfal : (tv field v).falsy
    · simp [obsE, hf, addValueE, hfal, processObservation, addValue]
    · simp [obsE, hf, addValueE, hfal, processObservation, addValue]

theorem obsListE_some (fd : String → JSVal → Bool) (tv : String → JSVal → JSVal)
    (field : String) (l : List JSVal) (root : Root) :
    obsListE (some fd) (some tv) field l (some root) =
      .ok (some (processList fd tv field l root)) := by
  induction l generalizing root with
  | nil => simp [obsListE, processList]
  | cons v rest ih =>
    simp only [obsListE, processList, obsE_some, bind, Except.bind]
    exact ih _

theorem applyValueE_some (fd : String → JSVal → Bool) (tv : String → JSVal → JSVal)
    (field : String) (value : JSVal) (root : Root) :
    applyValueE (some fd) (some tv) field value (some root) =
      .ok (some (applyValuePure fd tv field value root)) := by
  cases value with
  | jarr l => simpa [applyValueE, applyValuePure] using obsListE_some fd tv field l root
  | undef => exact obsE_some fd tv field _ root
  | jnull => exact obsE_some fd tv field _ root
  | jbool b => exact obsE_some fd tv field _ root
  | jnum n => exact obsE_some fd tv field _ root
  | jstr s => exact obsE_some fd tv field _ root
  | jobj o => exact obsE_some fd tv field _ root

/-! ### Count-sum invariant lemmas -/

theorem sumCounts_addValue (v : JSVal) (root : Root)
    (h : sumCounts root.values = root.total) :
    sumCounts (addValue v root).values = (addValue v root).total := by
  by_cases hfal : v.falsy
  · simp [addValue, hfal, h]
  · simp [addValue, hfal, sumCounts_bumpValue, h]

theorem sumCounts_addValueE (v : JSVal) (root? out : Option Root)
    (h : ∀ r, root? = some r → sumCounts r.values = r.total)
    (he : addValueE v root? = .ok out) :
    ∀ r, out = some r → sumCounts r.values = r.total := by
  by_cases hfal : v.falsy
  · simp only [addValueE, hfal, if_pos] at he
    cases he
    exact h
  · cases root? with
    | none => simp [addValueE, hfal] at he
    | some root =>
      simp only [addValueE, hfal, if_false, Bool.false_eq_true] at he
      cases he
      intro r hr
      cases hr
      exact sumCounts_addValue v root (h root rfl)

theorem sumCounts_obsE (fd? : Option (String → JSVal → Bool))
    (tv? : Option (String → JSVal → JSVal)) (field : String) (v : JSVal)
    (root? out : Option Root)
    (h : ∀ r, root? = some r → sumCounts r.values = r.total)
    (he : obsE fd? tv? field v root? = .ok out) :
    ∀ r, out = some r → sumCounts r.values = r.total := by
  cases fd? with
  | none => simp [obsE] at he
  | some fd =>
    by_cases hf : fd field v
    · simp only [obsE, hf, if_pos] at he
      cases he
      exact h
    · simp only [obsE, hf, if_false, Bool.false_eq_true] at he
      cases tv? with
      | none => simp at he
      | some tv => exact sumCounts_addValueE _ _ _ h he

theorem sumCounts_obsListE (fd? : Option (String → JSVal → Bool))
    (tv? : Option (String → JSVal → JSVal)) (field : String) (l : List JSVal)
    (root? out : Option Root)
    (h : ∀ r, root? = some r → sumCounts r.values = r.total)
    (he : obsListE fd? tv? field l root? = .ok out) :
    ∀ r, out = some r → sumCounts r.values = r.total := by
  induction l generalizing root? with
  | nil =>
    simp only [obsListE] at he
    cases he
    exact h
  | cons v rest ih =>
    simp only [obsListE, bind, Except.bind] at he
    cases hmid : obsE fd? tv? field v root? with
    | error e => rw [hmid] at he; cases he
    | ok mid =>
      rw [hmid] at he
      exact ih mid (sumCounts_obsE fd? tv? field v root? mid h hmid) he

theorem sumCounts_applyValueE (fd? : Option (String → JSVal → Bool))
    (tv? : Option (String → JSVal → JSVal)) (field : String) (value : JSVal)
    (root? out : Option Root)
    (h : ∀ r, root? = some r → sumCounts r.values = r.total)
    (he : applyValueE fd? tv? field value root? = .ok out) :
    ∀ r, out = some r → sumCounts r.values = r.total := by
  cases value with
  | jarr l => exact sumCounts_obsListE fd? tv? field l root? out h he
  | undef => exact sumCounts_obsE fd? tv? field _ root? out h he
  | jnull => exact sumCounts_obsE fd? tv? field _ root? out h he
  | jbool b => exact sumCounts_obsE fd? tv? field _ root? out h he
  | jnum n => exact sumCounts_obsE fd? tv? field _ root? out h he
  | jstr s => exact sumCounts_obsE fd? tv? field _ root? out h he
  | jobj o => exact sumCounts_obsE fd? tv? field _ root? out h he

/-- The count-sum invariant over a whole results map. -/
def SumInv (res : List (String × Root)) : Prop :=
  ∀ p ∈ res, sumCounts p.2.values = p.2.total

theorem sumInv_setA (res : List (String × Root)) (f : String) (root : Root)
    (h : SumInv res) (hr : sumCounts root.values = root.total) :
    SumInv (setA res f root) := by
  intro p hp
  rcases mem_setA res f root p hp with h1 | h1
  · subst h1; exact hr
  · exact h p h1

theorem sumInv_tallyField (s : SynthState) (doc : JSVal) (res out : List (String × Root))
    (key : String) (h : SumInv res) (he : tallyField s doc res key = .ok out) :
    SumInv out := by
  cases hsk : s.skipKeys with
  | none => simp [tallyField, hsk] at he
  | some sk =>
    by_cases hskip : sk.contains key
    · simp only [tallyField, hsk, hskip, if_pos] at he
      cases he
      exact h
    · simp only [tallyField, hsk, hskip, Bool.false_eq_true, if_false] at he
      cases htk : s.translateKey with
      | none => rw [htk] at he; simp at he
      | some tk =>
        rw [htk] at he
        simp only at he
        cases hav : applyValueE s.filterData s.translateValue (tk key)
            (jsGet doc (tk key)) (getA res (tk key)) with
        | error e => rw [hav] at he; cases he
        | ok root? =>
          rw [hav] at he
          have hbase : ∀ r, getA res (tk key) = some r → sumCounts r.values = r.total := by
            intro r hr
            exact h (tk key, r) (getA_mem res (tk key) r hr)
          have hout := sumCounts_applyValueE _ _ _ _ _ _ hbase hav
          cases root? with
          | none =>
            simp only at he
            cases he
            exact h
          | some root =>
            simp only at he
            cases he
            exact sumInv_setA res (tk key) root h (hout root rfl)

theorem sumInv_tallyFieldsRec (s : SynthState) (doc : JSVal) (keys : List String)
    (res out : List (String × Root)) (h : SumInv res)
    (he : tallyFieldsRec s doc keys res = .ok out) : SumInv out := by
  induction keys generalizing res with
  | nil =>
    simp only [tallyFieldsRec] at he
    cases he
    exact h
  | cons k rest ih =>
    simp only [tallyFieldsRec] at he
    cases hmid : tallyField s doc res k with
    | error e => rw [hmid] at he; cases he
    | ok mid =>
      rw [hmid] at he
      exact ih mid (sumInv_tallyField s doc res mid k h hmid) he

theorem sumInv_tallyDocsRec (s : SynthState) (dataPath : Option String)
    (fields : List String) (docs : List JSVal) (res out : List (String × Root))
    (h : SumInv res) (he : tallyDocsRec s dataPath fields docs res = .ok out) :
    SumInv out := by
  induction docs generalizing res with
  | nil =>
    simp only [tallyDocsRec] at he
    cases he
    exact h
  | cons doc rest ih =>
    simp only [tallyDocsRec] at he
    cases hmid : tallyFieldsRec s (projectDoc dataPath doc) fields res with
    | error e => rw [hmid] at he; cases he
    | ok mid =>
      rw [hmid] at he
      exact ih mid (sumInv_tallyFieldsRec s _ fields res mid h hmid) he

theorem sumInv_initResults (fields : List String) (m : List (String × Root))
    (h : SumInv m) : SumInv (initResults fields m) := by
  induction fields generalizing m with
  | nil => exact h
  | cons f rest ih =>
    exact ih _ (sumInv_setA m f ⟨0, []⟩ h (by simp [sumCounts]))

/-! ### Key-set lemmas for the tally pass -/

theorem keys_setA (m : List (String × α)) (k : String) (v : α) :
    (setA m k v).map Prod.fst =
      if (m.map Prod.fst).contains k then m.map Prod.fst else m.map Prod.fst ++ [k] := by
  induction m with
  | nil => simp [setA]
  | cons q rest ih =>
    obtain ⟨k0, w⟩ := q
    by_cases h0 : k0 = k
    · subst h0; simp [setA, List.contains_cons]
    · have hkk0 : (k == k0) = false :=
        beq_eq_false_iff_ne.mpr (show k ≠ k0 from fun e => h0 e.symm)
      simp only [setA, beq_iff_eq, if_neg h0, List.map_cons, List.contains_cons, hkk0,
        Bool.false_or]
      rw [ih]
      by_cases h1 : (rest.map Prod.fst).contains k
      · rw [if_pos h1, if_pos h1]
      · rw [if_neg h1, if_neg h1]
        simp

theorem initResults_keys (fields : List String) (m : List (String × Root)) :
    (initResults fields m).map Prod.fst = dedupInto (m.map Prod.fst) fields := by
  induction fields generalizing m with
  | nil => simp [initResults, dedupInto]
  | cons f rest ih =>
    simp only [initResults, dedupInto]
    rw [ih, keys_setA]

theorem mem_dedupInto (x : String) (acc l : List String) (h : x ∈ dedupInto acc l) :
    x ∈ acc ∨ x ∈ l := by
  induction l generalizing acc with
  | nil => exact Or.inl h
  | cons k rest ih =>
    simp only [dedupInto] at h
    rcases ih _ h with h1 | h1
    · by_cases hc : acc.contains k
      · rw [if_pos hc] at h1
        exact Or.inl h1
      · rw [if_neg hc] at h1
        rcases List.mem_append.mp h1 with h2 | h2
        · exact Or.inl h2
        · simp only [List.mem_singleton] at h2
          exact Or.inr (by simp [h2])
    · exact Or.inr (List.mem_cons_of_mem _ h1)

theorem find?_isSome_of_mem_keys (rs : List Rule) (k : String) (h : k ∈ rs.map Rule.key) :
    ∃ ru, rs.find? (fun f => f.key == k) = some ru := by
  induction rs with
  | nil => simp at h
  | cons r rest ih =>
    by_cases h0 : r.key = k
    · exact ⟨r, by simp [List.find?_cons, h0]⟩
    · have hk : (r.key == k) = false := beq_eq_false_iff_ne.mpr h0
      simp only [List.map_cons, List.mem_cons] at h
      rcases h with h1 | h1
      · exact absurd h1.symm h0
      · obtain ⟨ru, hru⟩ := ih h1
        exact ⟨ru, by simp [List.find?_cons, hk, hru]⟩

theorem isSome_of_keys_eq (res out : List (String × α)) (k : String)
    (hkeys : out.map Prod.fst = res.map Prod.fst) (h : (getA res k).isSome) :
    (getA out k).isSome := by
  rw [getA_isSome_iff_contains, hkeys, ← getA_isSome_iff_contains]
  exact h

/-! ### Success of the tally pass under present hooks and identity key
translation -/

theorem tallyField_ok (s : SynthState) (doc : JSVal) (res : List (String × Root))
    (key : String) (sk : List String) (fd : String → JSVal → Bool)
    (tv : String → JSVal → JSVal)
    (hsk : s.skipKeys = some sk) (htk : s.translateKey = some (fun k => k))
    (hfd : s.filterData = some fd) (htv : s.translateValue = some tv)
    (hin : (getA res key).isSome) :
    ∃ out, tallyField s doc res key = .ok out ∧ out.map Prod.fst = res.map Prod.fst := by
  by_cases hskip : sk.contains key
  · exact ⟨res, by simp only [tallyField, hsk]; rw [if_pos hskip], rfl⟩
  · obtain ⟨root, hroot⟩ := Option.isSome_iff_exists.mp hin
    refine ⟨setA res key (applyValuePure fd tv key (jsGet doc key) root), ?_, ?_⟩
    · simp only [tallyField, hsk, hskip, Bool.false_eq_true, if_false, htk, hfd, htv, hroot,
        applyValueE_some]
    · rw [keys_setA, if_pos]
      rw [← getA_isSome_iff_contains]
      exact hin

theorem tallyFieldsRec_ok (s : SynthState) (doc : JSVal) (keys : List String)
    (res : List (String × Root)) (sk : List String) (fd : String → JSVal → Bool)
    (tv : String → JSVal → JSVal)
    (hsk : s.skipKeys = some sk) (htk : s.translateKey = some (fun k => k))
    (hfd : s.filterData = some fd) (htv : s.translateValue = some tv)
    (hin : ∀ k ∈ keys, (getA res k).isSome) :
    ∃ out, tallyFieldsRec s doc keys res = .ok out ∧ out.map Prod.fst = res.map Prod.fst := by
  induction keys generalizing res with
  | nil => exact ⟨res, rfl, rfl⟩
  | cons k rest ih =>
    obtain ⟨mid, hmid, hkeys⟩ :=
      tallyField_ok s doc res k sk fd tv hsk htk hfd htv (hin k (by simp))
    obtain ⟨out, hout, hkeys2⟩ := ih mid (fun k2 hk2 =>
      isSome_of_keys_eq res mid k2 hkeys (hin k2 (List.mem_cons_of_mem _ hk2)))
    refine ⟨out, ?_, hkeys2.trans hkeys⟩
    simp only [tallyFieldsRec, hmid]
    exact hout

theorem tallyDocsRec_ok (s : SynthState) (dataPath : Option String) (fields : List String)
    (docs : List JSVal) (res : List (String × Root)) (sk : List String)
    (fd : String → JSVal → Bool) (tv : String → JSVal → JSVal)
    (hsk : s.skipKeys = some sk) (htk : s.translateKey = some (fun k => k))
    (hfd : s.filterData = some fd) (htv : s.translateValue = some tv)
    (hin : ∀ k ∈ fields, (getA res k).isSome) :
    ∃ out, tallyDocsRec s dataPath fields docs res = .ok out ∧
      out.map Prod.fst = res.map Prod.fst := by
  induction docs generalizing res with
  | nil => exact ⟨res, rfl, rfl⟩
  | cons doc rest ih =>
    obtain ⟨mid, hmid, hkeys⟩ :=
      tallyFieldsRec_ok s (projectDoc dataPath doc) fields res sk fd tv hsk htk hfd htv hin
    obtain ⟨out, hout, hkeys2⟩ := ih mid (fun k2 hk2 =>
      isSome_of_keys_eq res mid k2 hkeys (hin k2 hk2))
    refine ⟨out, ?_, hkeys2.trans hkeys⟩
    simp only [tallyDocsRec, hmid]
    exact hout

theorem initResults_isSome (fields : List String) (m : List (String × Root)) (f : String)
    (h : f ∈ fields ∨ (getA m f).isSome) : (getA (initResults fields m) f).isSome := by
  induction fields generalizing m with
  | nil =>
    rcases h with h1 | h1
    · simp at h1
    · exact h1
  | cons g rest ih =>
    simp only [initResults]
    rcases h with h1 | h1
    · rcases List.mem_cons.mp h1 with h2 | h2
      · subst h2
        exact ih _ (Or.inr (by rw [getA_setA_self]; rfl))
      · exact ih _ (Or.inl h2)
    · exact ih _ (Or.inr (getA_isSome_setA m g f ⟨0, []⟩ h1))

/-! ### Rule application: success and silent absence of unknown modes -/

theorem applyRulesRec_absent (rs : List Rule) (incl : Bool) (r : Rule)
    (hfind : rs.find? (fun f => f.key == r.key) = some r)
    (hm1 : r.mode ≠ "top") (hm2 : r.mode ≠ "percentage")
    (entries : List (String × List Entry))
    (acc : List (String × List String) × List (String × List Entry))
    (hent : ∀ kv ∈ entries, ∃ ru, rs.find? (fun f => f.key == kv.1) = some ru)
    (h1 : getA acc.1 r.key = none) (h2 : getA acc.2 r.key = none) :
    ∃ out, applyRulesRec rs incl entries acc = .ok out ∧
      getA out.1 r.key = none ∧ getA out.2 r.key = none := by
  induction entries generalizing acc with
  | nil => exact ⟨acc, rfl, h1, h2⟩
  | cons kv rest ih =>
    obtain ⟨ru, hru⟩ := hent kv (by simp)
    by_cases hkey : kv.1 = r.key
    · have hru2 : ru = r := by
        rw [hkey] at hru
        rw [hru] at hfind
        exact Option.some_inj.mp hfind
      subst hru2
      have hmt : (ru.mode == "top") = false := beq_eq_false_iff_ne.mpr hm1
      have hmp : (ru.mode == "percentage") = false := beq_eq_false_iff_ne.mpr hm2
      have hstep : applyRulesStep rs incl acc kv = .ok acc := by
        simp [applyRulesStep, hru, hmt, hmp]
      obtain ⟨out, hout, ho1, ho2⟩ := ih acc (fun kv2 hkv2 => hent kv2 (by simp [hkv2])) h1 h2
      refine ⟨out, ?_, ho1, ho2⟩
      simp only [applyRulesRec, hstep]
      exact hout
    · have hne : r.key ≠ kv.1 := fun e => hkey e.symm
      by_cases hmt : ru.mode == "top"
      · have hstep : applyRulesStep rs incl acc kv = .ok
            (setA acc.1 kv.1 (topSelect ru.threshold kv.2),
             if incl then setA acc.2 kv.1 (jsSlice kv.2 ru.threshold) else acc.2) := by
          simp [applyRulesStep, hru, hmt]
        have hn1 : getA (setA acc.1 kv.1 (topSelect ru.threshold kv.2)) r.key = none := by
          rw [getA_setA_other _ _ _ _ hne]; exact h1
        have hn2 : getA (if incl then setA acc.2 kv.1 (jsSlice kv.2 ru.threshold) else acc.2)
            r.key = none := by
          by_cases hi : incl
          · rw [if_pos hi, getA_setA_other _ _ _ _ hne]; exact h2
          · rw [if_neg hi]; exact h2
        obtain ⟨out, hout, ho1, ho2⟩ :=
          ih (setA acc.1 kv.1 (topSelect ru.threshold kv.2),
              if incl then setA acc.2 kv.1 (jsSlice kv.2 ru.threshold) else acc.2)
            (fun kv2 hkv2 => hent kv2 (by simp [hkv2])) hn1 hn2
        refine ⟨out, ?_, ho1, ho2⟩
        simp only [applyRulesRec, hstep]
        exact hout
      · by_cases hmp : ru.mode == "percentage"
        · have hstep : applyRulesStep rs incl acc kv = .ok
              (setA acc.1 kv.1 ((capApply ru.cap (pctSelect ru.operator ru.threshold kv.2)).map
                 (fun e => e.1)),
               if incl then setA acc.2 kv.1
                 (capApply ru.cap (pctSelect ru.operator ru.threshold kv.2)) else acc.2) := by
            simp [applyRulesStep, hru, hmt, hmp]
          have hn1 : getA (setA acc.1 kv.1
              ((capApply ru.cap (pctSelect ru.operator ru.threshold kv.2)).map (fun e => e.1)))
              r.key = none := by
            rw [getA_setA_other _ _ _ _ hne]; exact h1
          have hn2 : getA (if incl then setA acc.2 kv.1
              (capApply ru.cap (pctSelect ru.operator ru.threshold kv.2)) else acc.2)
              r.key = none := by
            by_cases hi : incl
            · rw [if_pos hi, getA_setA_other _ _ _ _ hne]; exact h2
            · rw [if_neg hi]; exact h2
          obtain ⟨out, hout, ho1, ho2⟩ :=
            ih (setA acc.1 kv.1 ((capApply ru.cap (pctSelect ru.operator ru.threshold kv.2)).map
                  (fun e => e.1)),
                if incl then setA acc.2 kv.1
                  (capApply ru.cap (pctSelect ru.operator ru.threshold kv.2)) else acc.2)
              (fun kv2 hkv2 => hent kv2 (by simp [hkv2])) hn1 hn2
          refine ⟨out, ?_, ho1, ho2⟩
          simp only [applyRulesRec, hstep]
          exact hout
        · have hstep : applyRulesStep rs incl acc kv = .ok acc := by
            simp [applyRulesStep, hru, hmt, hmp]
          obtain ⟨out, hout, ho1, ho2⟩ :=
            ih acc (fun kv2 hkv2 => hent kv2 (by simp [hkv2])) h1 h2
          refine ⟨out, ?_, ho1, ho2⟩
          simp only [applyRulesRec, hstep]
          exact hout

/-- Every executed case list of the fallthrough switch ends with the
`default` (`>=`) case, and each executed case overwrites the previous
assignment, so the net selection is always the `>=` filter. -/
theorem pctSelect_eq_gte (op : Option String) (th : Rat) (v : List Entry) :
    pctSelect op th v = opFilter "gte" th v := by
  unfold pctSelect pctCases
  split <;> rfl

/-- Every failing branch of `transformCore` returns the state and event
list it received. -/
theorem transformCore_error (s' : SynthState) (evs : List Event) (regole : List Rule)
    (a : TransformArgs) (st : SynthState) (evs' : List Event) (e : String)
    (h : transformCore s' evs regole a = (st, evs', .error e)) :
    st = s' ∧ evs' = evs := by
  unfold transformCore at h
  by_cases h1 : regole.isEmpty
  · rw [if_pos h1] at h
    exact ⟨(congrArg Prod.fst h).symm, (congrArg (fun p => p.2.1) h).symm⟩
  · rw [if_neg h1] at h
    cases hos : a.outputStream with
    | some b =>
      cases b with
      | false =>
        simp only [hos] at h
        exact ⟨(congrArg Prod.fst h).symm, (congrArg (fun p => p.2.1) h).symm⟩
      | true =>
        simp only [hos] at h
        cases htal : tallyDocsRec s' a.dataPath (regole.map fun r => r.key) a.docs.items
            (initResults (regole.map fun r => r.key) []) with
        | error e2 =>
          simp only [htal] at h
          exact ⟨(congrArg Prod.fst h).symm, (congrArg (fun p => p.2.1) h).symm⟩
        | ok results =>
          simp only [htal] at h
          cases happ : applyRulesRec regole a.includeStats (jsEntries (rankStage results))
              ([], []) with
          | error e2 =>
            simp only [happ] at h
            exact ⟨(congrArg Prod.fst h).symm, (congrArg (fun p => p.2.1) h).symm⟩
          | ok out =>
            simp only [happ] at h
            exact absurd (congrArg (fun p => p.2.2) h) (by simp)
    | none =>
      simp only [hos] at h
      cases htal : tallyDocsRec s' a.dataPath (regole.map fun r => r.key) a.docs.items
          (initResults (regole.map fun r => r.key) []) with
      | error e2 =>
        simp only [htal] at h
        exact ⟨(congrArg Prod.fst h).symm, (congrArg (fun p => p.2.1) h).symm⟩
      | ok results =>
        simp only [htal] at h
        cases happ : applyRulesRec regole a.includeStats (jsEntries (rankStage results))
            ([], []) with
        | error e2 =>
          simp only [happ] at h
          exact ⟨(congrArg Prod.fst h).symm, (congrArg (fun p => p.2.1) h).symm⟩
        | ok out =>
          simp only [happ] at h
          exact absurd (congrArg (fun p => p.2.2) h) (by simp)

/-! ### The claims -/

section RatComputation

/- The Batteries rational arithmetic primitives are `@[irreducible]`,
which blocks their evaluation inside `decide`/`rfl` proofs; restore the
default reducibility locally so concrete runs of the engine reduce. -/
attribute [local semireducible] Rat.mul Rat.add Rat.inv Rat.sub

/-- C1: the claim states that a `"percentage"` rule selects exactly the
ranked values whose percentage satisfies the rule operator (`equal`,
`lt`, `lte`, `gt`, `gte`, defaulting to `gte`).  The switch in the
source has no `break` statements, so every operator falls through to the
`default` (`>=`) assignment, which always wins: on the spec batch
`[{a:"x"},{a:"x"},{a:"y"}]` the operator `lt` with threshold 50 selects
`["x"]` (percentage 66.7, not below 50) and drops `"y"` (33.3, below
50), contradicting the claim. -/
def argsC1 : TransformArgs :=
  { docs := ⟨false, docsXXY⟩,
    rules := some [{ key := "a", mode := "percentage", threshold := 50,
                     operator := some "lt" }] }

theorem claim_C1_percentage_fallthrough :
    (∀ (op : Option String) (th : Rat) (v : List Entry),
      pctSelect op th v = opFilter "gte" th v)
    ∧ (transformModel exState argsC1).2.2 = .ok ⟨[("a", ["x"])], []⟩
    ∧ percentageOf 2 3 = 667 / 10
    ∧ ¬((667 : Rat) / 10 < 50)
    ∧ percentageOf 1 3 = 333 / 10
    ∧ ((333 : Rat) / 10 < 50) := by
  refine ⟨pctSelect_eq_gte, by rfl, by decide, by decide, by decide, by decide⟩

/-- The instance used for the round-trip check of C2: explicit skip keys
and rules over the baseline configuration. -/
def exC2 : SynthState :=
  { exState with
    skipKeys := some ["a"],
    rules := some [{ key := "b", mode := "top", threshold := 2 }] }

/-- C2: the claim states that decoding the encoded model artifact
reproduces rules, skipKeys and the default fields.  `getModel` writes
the property `skipKeys` but `extractDataFromModel` reads
`model.skipFields`, so the decoded instance has `skipKeys` `undefined`;
rules and the default fields do round-trip. -/
theorem claim_C2_roundtrip_skipKeys :
    (extractDataFromModel exC2 (getModelRec exC2 0)).skipKeys = none
    ∧ exC2.skipKeys = some ["a"]
    ∧ (extractDataFromModel exC2 (getModelRec exC2 0)).rules = exC2.rules
    ∧ (extractDataFromModel exC2 (getModelRec exC2 0)).defaultRuleMode = exC2.defaultRuleMode
    ∧ (extractDataFromModel exC2 (getModelRec exC2 0)).defaultRuleValue = exC2.defaultRuleValue
    ∧ (extractDataFromModel exC2 (getModelRec exC2 0)).defaultRuleOperator
        = exC2.defaultRuleOperator
    ∧ (extractDataFromModel exC2 (getModelRec exC2 0)).keepAutogeneratedRules
        = exC2.keepAutogeneratedRules :=
  ⟨rfl, rfl, rfl, rfl, rfl, rfl, rfl⟩

/-- The explicit call-level rule used in the C3 stream scenario. -/
def ruleTopA : Rule := { key := "a", mode := "top", threshold := 1 }

/-- The C3 scenario: a stream source with call-level rules supplied but
no instance rules. -/
def argsC3 : TransformArgs := { docs := ⟨true, docsXXY⟩, rules := some [ruleTopA] }

/-- C3: the claim states the stream `UsageError` fires exactly when
neither call-level nor instance rules exist.  The guard in the source is
`checkStream(docs) && (!rules || !this.rules)`: with call-level rules
supplied and no instance rules it still throws, contradicting the
claim; with rules present on the instance as well the call
succeeds. -/
theorem claim_C3_stream_guard :
    transformModel exState argsC3 = (exState, [], .error streamErrMsg)
    ∧ argsC3.docs.isStream = true
    ∧ argsC3.rules = some [ruleTopA]
    ∧ exState.rules = none
    ∧ (transformModel { exState with rules := some [ruleTopA] } argsC3).2.2.isOk = true :=
  ⟨rfl, rfl, rfl, rfl, rfl⟩

/-- C4 counterexample: the claim states every threshold at most 0 yields
an empty `"top"` selection, but a `"top"` rule with threshold `-1` on
the spec batch selects `["x"]` (JS `slice(0, -1)` keeps all but the last
ranked value). -/
def argsC4 : TransformArgs :=
  { docs := ⟨false, docsXXY⟩,
    rules := some [{ key := "a", mode := "top", threshold := -1 }] }

theorem claim_C4_counterexample :
    (transformModel exState argsC4).2.2 = .ok ⟨[("a", ["x"])], []⟩
    ∧ ((-1 : Rat) ≤ 0) ∧ (["x"] ≠ ([] : List String)) := by
  refine ⟨by rfl, by norm_num, by simp⟩

/-- C4 amended: for a `"top"` rule with nonnegative threshold the
selection is the first `trunc threshold` ranked values, of length
`min (trunc threshold) distinctValueCount` (so threshold 0 yields the
empty selection); a negative threshold follows JS slice semantics,
keeping all but the last `|trunc threshold|` ranked values, which can be
non-empty. -/
theorem claim_C4_top_amended (threshold : Rat) (v : List Entry) (h : 0 ≤ threshold) :
    topSelect threshold v = (v.take (ratTrunc threshold).toNat).map (fun e => e.1)
    ∧ (topSelect threshold v).length = min (ratTrunc threshold).toNat v.length := by
  have htr : ¬(threshold < 0) := not_lt.mpr h
  have hfl : (0 : Int) ≤ Int.floor threshold := Int.floor_nonneg.mpr h
  have he : ¬(ratTrunc threshold < 0) := by
    simp only [ratTrunc, if_neg htr]
    omega
  constructor
  · simp only [topSelect, jsSlice, if_neg he]
  · simp only [topSelect, jsSlice, if_neg he, List.length_map, List.length_take]

/-- The ranked entries of the spec batch, used to instantiate C4. -/
def entriesXY : List Entry := [("x", 2, 667 / 10), ("y", 1, 333 / 10)]

/-- Witness for the amended C4 at threshold 2 on the spec batch. -/
theorem claim_C4_top_amended_witness :
    topSelect 2 entriesXY = (entriesXY.take (ratTrunc 2).toNat).map (fun e => e.1)
    ∧ (topSelect 2 entriesXY).length = min (ratTrunc 2).toNat entriesXY.length :=
  claim_C4_top_amended 2 entriesXY (by norm_num)

/-- The hook a caller provides in the C5 scenario. -/
def tvHookProvided : String → JSVal → JSVal := fun _ _ => JSVal.undef

/-- The key hook a caller provides in the C5 scenario. -/
def tkHookProvided : String → String := fun _ => "t"

/-- C5: the claim states every truthy-provided field of `setParams`
overwrites the instance field, in particular `translateValue`.  The
source line `if (translateValue) this.translateValue;` reads the field
without assigning it, so the provided hook is silently discarded while
the other fields (here `translateKey`) do overwrite. -/
theorem claim_C5_translateValue_noop :
    (setParams exState { translateValue := some tvHookProvided }).1.translateValue
      = exState.translateValue
    ∧ (setParams exState { translateKey := some tkHookProvided }).1.translateKey
      = some tkHookProvided
    ∧ exState.translateValue ≠ some tvHookProvided := by
  refine ⟨rfl, rfl, ?_⟩
  intro h
  have h2 := Option.some_inj.mp h
  have h3 := congrFun (congrFun h2 "k") (.jstr "x")
  simp [tvHookProvided] at h3

/-- C6 counterexample: the claim states that for equal counts the value
first encountered in the document sequence precedes the later one in
the ranked list.  The values object is a plain JS object, and
`Object.entries` enumerates array-index keys in ascending numeric order
before anything else: observations `10` then `2` (one occurrence each,
so equal counts and a tie) are tallied in that encounter order, yet the
ranked list is `["2", "10"]` — the first-encountered `10` does not
precede `2`. -/
theorem claim_C6_counterexample :
    sortCD (pctEntries (processList (fun _ _ => false) (fun _ v => v) "a"
        [.jnum 10, .jnum 2] ⟨0, []⟩))
      = [("2", 1, 50), ("10", 1, 50)]
    ∧ talliedKeys (fun _ _ => false) (fun _ v => v) "a" [.jnum 10, .jnum 2] = ["10", "2"]
    ∧ (processList (fun _ _ => false) (fun _ v => v) "a"
        [.jnum 10, .jnum 2] ⟨0, []⟩).values = [("10", 1), ("2", 1)] := by
  refine ⟨by decide, by decide, by decide⟩

/-- C6 amended: the ranking produced before rule application is sorted
non-increasingly by count and the sort is stable (entries with equal
counts keep their enumeration order); the values object stores its keys
in first-encounter order of the tallied observations, but its
enumeration follows JS own-property order: array-index keys ascending
first, then the remaining keys in first-encounter order — so
encounter-order tie-breaking holds among the non-index value keys,
while index-like value keys rank among themselves in ascending numeric
order. -/
theorem claim_C6_stable_ranking (fd : String → JSVal → Bool) (tv : String → JSVal → JSVal)
    (field : String) (vs : List JSVal) :
    ((sortCD (pctEntries (processList fd tv field vs ⟨0, []⟩))).Pairwise
        (fun a b => b.2.1 ≤ a.2.1))
    ∧ (∀ c : Nat, (sortCD (pctEntries (processList fd tv field vs ⟨0, []⟩))).filter
        (fun e => e.2.1 == c)
        = (pctEntries (processList fd tv field vs ⟨0, []⟩)).filter (fun e => e.2.1 == c))
    ∧ (processList fd tv field vs ⟨0, []⟩).values.map Prod.fst
        = dedupFirst (talliedKeys fd tv field vs)
    ∧ ((pctEntries (processList fd tv field vs ⟨0, []⟩)).map Prod.fst).filter
          (fun k => (arrayIndex? k).isNone)
        = ((processList fd tv field vs ⟨0, []⟩).values.map Prod.fst).filter
            (fun k => (arrayIndex? k).isNone)
    ∧ (((pctEntries (processList fd tv field vs ⟨0, []⟩)).map Prod.fst).filter
          (fun k => (arrayIndex? k).isSome)).Pairwise
        (fun a b => (arrayIndex? a).getD 0 ≤ (arrayIndex? b).getD 0) := by
  refine ⟨sortCD_pairwise _, fun c => sortCD_filter _ c, ?_, ?_, ?_⟩
  · rw [keys_processList]
    rfl
  · rw [pctEntries_keys, jsEntries_keys_nonIdx]
  · rw [pctEntries_keys]
    exact jsEntries_keys_idx_sorted _

/-- C7: an observation dropped by `filterData` or falsy after
`translateValue` leaves the field root untouched; otherwise the
translated value key is tallied: the total grows by one, the key count
grows by one, and every other key count is unchanged. -/
theorem claim_C7_filter_falsy_drop (fd : String → JSVal → Bool)
    (tv : String → JSVal → JSVal) (field : String) (v : JSVal) (root : Root) :
    ((fd field v = true ∨ (tv field v).falsy = true) →
      processObservation fd tv field v root = root)
    ∧ (fd field v = false → (tv field v).falsy = false →
      (processObservation fd tv field v root).total = root.total + 1
      ∧ getA (processObservation fd tv field v root).values (tv field v).toKey
          = some ((getA root.values (tv field v).toKey).getD 0 + 1)
      ∧ ∀ k, k ≠ (tv field v).toKey →
          getA (processObservation fd tv field v root).values k = getA root.values k) := by
  constructor
  · rintro (h | h)
    · simp [processObservation, h]
    · by_cases hf : fd field v
      · simp [processObservation, hf]
      · simp [processObservation, hf, addValue, h]
  · intro h1 h2
    refine ⟨?_, ?_, ?_⟩
    · simp [processObservation, h1, addValue, h2]
    · simp [processObservation, h1, addValue, h2, getA_bumpValue_self]
    · intro k hk
      simp [processObservation, h1, addValue, h2, getA_bumpValue_other _ _ _ hk]

/-- Witness for C7: a filtered observation leaves the empty root alone,
and an unfiltered truthy observation increments the total. -/
theorem claim_C7_witness :
    processObservation (fun _ _ => true) (fun _ v => v) "a" (.jstr "x") ⟨0, []⟩ = ⟨0, []⟩
    ∧ (processObservation (fun _ _ => false) (fun _ v => v) "a" (.jstr "x") ⟨0, []⟩).total
        = 0 + 1 :=
  ⟨(claim_C7_filter_falsy_drop (fun _ _ => true) (fun _ v => v) "a" (.jstr "x") ⟨0, []⟩).1
      (Or.inl rfl),
   ((claim_C7_filter_falsy_drop (fun _ _ => false) (fun _ v => v) "a" (.jstr "x") ⟨0, []⟩).2
      rfl rfl).1⟩

/-- C8: after a full tally pass over a finite document sequence, every
field root of the results map has the sum of its value counts equal to
its total. -/
theorem claim_C8_sum_counts (s : SynthState) (dataPath : Option String)
    (fields : List String) (docs : List JSVal) (res : List (String × Root))
    (h : tallyDocsRec s dataPath fields docs (initResults fields []) = .ok res) :
    ∀ p ∈ res, sumCounts p.2.values = p.2.total :=
  sumInv_tallyDocsRec s dataPath fields docs _ res
    (sumInv_initResults fields [] (by intro p hp; simp at hp)) h

/-- The results map the spec batch produces for the field `a`. -/
def resC8 : List (String × Root) := [("a", ⟨3, [("x", 2), ("y", 1)]⟩)]

/-- Witness for C8 on the spec batch. -/
theorem claim_C8_sum_counts_witness : sumCounts [("x", 2), ("y", 1)] = 3 :=
  claim_C8_sum_counts exState none ["a"] docsXXY resC8 rfl
    ("a", ⟨3, [("x", 2), ("y", 1)]⟩) (by simp [resC8])

/-- The instance of the C9 counterexample: no rules configured and
`keepAutogeneratedRules` enabled. -/
def sC9 : SynthState := { exState with keepAutogeneratedRules := true }

/-- The call of the C9 counterexample: an empty document batch with no
call-level rules. -/
def aC9 : TransformArgs := { docs := ⟨false, []⟩ }

/-- C9 counterexample: the claim states a failing transform performs no
mutation and fires no notification, but with no rules anywhere,
`keepAutogeneratedRules` set and an empty batch, the transform stores
the empty auto-derived rule list on the instance and emits
`model_update` before throwing the no-rules error. -/
theorem claim_C9_counterexample :
    transformModel sC9 aC9 =
      ({ sC9 with rules := some [] }, [Event.model_update], .error noRulesErrMsg)
    ∧ sC9.rules = none :=
  ⟨rfl, rfl⟩

/-- C9 amended: failing save and load calls leave the state unchanged
and fire no notification, and so does a failing transform unless it
auto-derived rules while `keepAutogeneratedRules` was set (no call-level
rules and no instance rules), in which case the derived rules are stored
and `model_update` fires before the error. -/
theorem claim_C9_amended :
    (∀ (s : SynthState) (dir : Option String) (st : SynthState) (evs : List Event)
        (e : String), saveModelM s dir = (st, evs, .error e) → st = s ∧ evs = [])
    ∧ (∀ (s : SynthState) (raw : Except String (List (String × MVal))) (st : SynthState)
        (evs : List Event) (e : String),
        loadModelM s raw = (st, evs, .error e) → st = s ∧ evs = [])
    ∧ (∀ (s : SynthState) (a : TransformArgs) (st : SynthState) (evs : List Event)
        (e : String), transformModel s a = (st, evs, .error e) →
        (a.rules.isSome ∨ s.rules.isSome ∨ s.keepAutogeneratedRules = false) →
        st = s ∧ evs = []) := by
  refine ⟨?_, ?_, ?_⟩
  · intro s dir st evs e h
    cases dir with
    | none =>
      exact ⟨(congrArg Prod.fst h).symm, (congrArg (fun p => p.2.1) h).symm⟩
    | some d =>
      simp only [saveModelM] at h
      by_cases hd : (d == "") = true
      · rw [if_pos hd] at h
        exact ⟨(congrArg Prod.fst h).symm, (congrArg (fun p => p.2.1) h).symm⟩
      · rw [if_neg hd] at h
        by_cases hm : s.model = true
        · rw [if_pos hm] at h
          exact absurd (congrArg (fun p => p.2.2) h) (by simp)
        · rw [if_neg hm] at h
          exact ⟨(congrArg Prod.fst h).symm, (congrArg (fun p => p.2.1) h).symm⟩
  · intro s raw st evs e h
    cases raw with
    | error e2 =>
      exact ⟨(congrArg Prod.fst h).symm, (congrArg (fun p => p.2.1) h).symm⟩
    | ok m =>
      exact absurd (congrArg (fun p => p.2.2) h) (by simp [loadModelM])
  · intro s a st evs e h hside
    unfold transformModel at h
    by_cases hg : (a.docs.isStream && (a.rules.isNone || s.rules.isNone)) = true
    · rw [if_pos hg] at h
      exact ⟨(congrArg Prod.fst h).symm, (congrArg (fun p => p.2.1) h).symm⟩
    · rw [if_neg hg] at h
      cases har : a.rules with
      | some r =>
        simp only [har] at h
        exact transformCore_error s [] r a st evs e h
      | none =>
        simp only [har] at h
        cases hsr : s.rules with
        | some r =>
          simp only [hsr] at h
          exact transformCore_error s [] r a st evs e h
        | none =>
          simp only [hsr] at h
          cases hbd : buildDefaultRules s a.docs.items a.dataPath with
          | error e2 =>
            simp only [hbd] at h
            exact ⟨(congrArg Prod.fst h).symm, (congrArg (fun p => p.2.1) h).symm⟩
          | ok auto =>
            simp only [hbd] at h
            have hkeep : s.keepAutogeneratedRules = false := by
              rcases hside with h1 | h1 | h1
              · rw [har] at h1; simp at h1
              · rw [hsr] at h1; simp at h1
              · exact h1
            rw [hkeep] at h
            simp only [Bool.false_eq_true, if_false] at h
            exact transformCore_error s [] auto a st evs e h

/-- Witness for the amended C9: a transform failing the no-rules check
on an instance without `keepAutogeneratedRules` leaves the baseline
state and events untouched. -/
theorem claim_C9_amended_witness :
    exState = exState ∧ ([] : List Event) = [] :=
  claim_C9_amended.2.2 exState { docs := ⟨false, []⟩ } exState [] noRulesErrMsg rfl
    (Or.inr (Or.inr rfl))

/-- C10: for a call-level rule list containing a rule whose mode is
neither `"top"` nor `"percentage"`, a transform over a non-stream batch
(with hooks present and identity key translation) completes without an
error, and the rule key is absent from both the returned selections and
stats, even though its field was tallied. -/
theorem claim_C10_unknown_mode (s : SynthState) (a : TransformArgs) (rs : List Rule)
    (r : Rule) (sk : List String) (fd : String → JSVal → Bool)
    (tv : String → JSVal → JSVal)
    (hstream : a.docs.isStream = false)
    (hrules : a.rules = some rs)
    (hne : rs ≠ [])
    (hout : a.outputStream ≠ some false)
    (hsk : s.skipKeys = some sk)
    (htk : s.translateKey = some (fun k => k))
    (hfd : s.filterData = some fd)
    (htv : s.translateValue = some tv)
    (hfind : rs.find? (fun f => f.key == r.key) = some r)
    (hm1 : r.mode ≠ "top") (hm2 : r.mode ≠ "percentage") :
    ∃ out, transformModel s a = (s, [Event.transformed], .ok out)
      ∧ getA out.selections r.key = none ∧ getA out.stats r.key = none := by
  obtain ⟨res, hres, hkeys⟩ :=
    tallyDocsRec_ok s a.dataPath (rs.map fun ru => ru.key) a.docs.items
      (initResults (rs.map fun ru => ru.key) []) sk fd tv hsk htk hfd htv
      (fun k hk => initResults_isSome _ [] k (Or.inl hk))
  have hreskeys : res.map Prod.fst = dedupInto [] (rs.map fun ru => ru.key) := by
    rw [hkeys, initResults_keys]
    rfl
  have hent : ∀ kv ∈ jsEntries (rankStage res),
      ∃ ru, rs.find? (fun f => f.key == kv.1) = some ru := by
    intro kv hkv
    have h1 : kv.1 ∈ (rankStage res).map Prod.fst :=
      List.mem_map_of_mem _ (mem_jsEntries kv _ hkv)
    have h2 : (rankStage res).map Prod.fst = res.map Prod.fst := by
      simp [rankStage, List.map_map]
    rw [h2, hreskeys] at h1
    rcases mem_dedupInto kv.1 [] _ h1 with h3 | h3
    · simp at h3
    · exact find?_isSome_of_mem_keys rs kv.1 h3
  obtain ⟨out2, happly, habs1, habs2⟩ :=
    applyRulesRec_absent rs a.includeStats r hfind hm1 hm2 (jsEntries (rankStage res))
      ([], []) hent rfl rfl
  refine ⟨⟨out2.1, out2.2⟩, ?_, habs1, habs2⟩
  have hg : (a.docs.isStream && (a.rules.isNone || s.rules.isNone)) = false := by
    rw [hstream]
    rfl
  have hempty : rs.isEmpty = false := by
    cases rs with
    | nil => exact absurd rfl hne
    | cons x xs => rfl
  unfold transformModel
  rw [hg]
  simp only [Bool.false_eq_true, if_false, hrules]
  unfold transformCore
  rw [hempty]
  simp only [Bool.false_eq_true, if_false]
  cases hos : a.outputStream with
  | none =>
    simp only [hos, hres, happly]
    rfl
  | some b =>
    cases b with
    | true =>
      simp only [hos, hres, happly]
      rfl
    | false => exact absurd hos hout

/-- The unknown-mode rule used to instantiate C10. -/
def ruleBogus : Rule := { key := "a", mode := "unknown", threshold := 1 }

/-- The call of the C10 witness. -/
def argsC10 : TransformArgs := { docs := ⟨false, docsXXY⟩, rules := some [ruleBogus] }

/-- Witness for C10: the unknown-mode rule on the spec batch completes
and its key is absent from selections and stats. -/
theorem claim_C10_unknown_mode_witness :
    ∃ out, transformModel exState argsC10 = (exState, [Event.transformed], .ok out)
      ∧ getA out.selections ruleBogus.key = none ∧ getA out.stats ruleBogus.key = none :=
  claim_C10_unknown_mode exState argsC10 [ruleBogus] ruleBogus [] (fun _ _ => false)
    (fun _ v => v) rfl rfl (by simp) (by simp [argsC10]) rfl rfl rfl rfl rfl (by decide)
    (by decide)

end RatComputation

end J2S
